import Mathlib

/-!
# Verification of the mjoy-go transaction pool and transaction signer

Shallow embedding of `src/mjoy.io/core/txprocessor/tx_pool.go` and of the
transaction signer (`MSigner`, `Sender`, `SignTx`, `recoverPlain`,
`deriveChainId`).  Addresses, hashes, keys and byte strings are modelled as
natural numbers / lists of naturals; Go `big.Int` amounts are `Int`;
Go maps are association lists iterated in list order.  The cryptographic
primitives (ECDSA over secp256k1, Keccak-256, the MessagePack encoder) are
deliberately out of scope of the specification and are abstracted as an
explicit `CryptoPrims` record of computable functions, so that theorems can
hypothesise exactly the properties the spec assumes of them and witnesses can
instantiate them with concrete executable stand-ins.
-/

set_option maxRecDepth 100000

/-! ## Association-list helpers (Go maps) -/

def alGet {α : Type} [DecidableEq α] {β : Type} (l : List (α × β)) (k : α) : Option β :=
  match l with
  | [] => none
  | (k', v) :: rest => if k' = k then some v else alGet rest k

def alPut {α : Type} [DecidableEq α] {β : Type} (l : List (α × β)) (k : α) (v : β) :
    List (α × β) :=
  match l with
  | [] => [(k, v)]
  | (k', v') :: rest => if k' = k then (k, v) :: rest else (k', v') :: alPut rest k v

def alRemove {α : Type} [DecidableEq α] {β : Type} (l : List (α × β)) (k : α) :
    List (α × β) :=
  match l with
  | [] => []
  | (k', v') :: rest => if k' = k then alRemove rest k else (k', v') :: alRemove rest k

/-! ## Bit length (big.Int.BitLen) -/

/-- Fuel-driven bit length; `bitLenAux fuel n` equals the bit length of `n`
whenever `n ≤ fuel`. -/
def bitLenAux : Nat → Nat → Nat
  | 0, _ => 0
  | fuel + 1, n => if n = 0 then 0 else bitLenAux fuel (n / 2) + 1

/-- `big.Int.BitLen`: number of bits in the binary representation. -/
def natBitLen (n : Nat) : Nat := bitLenAux n n

def TWO64 : Nat := 2 ^ 64

/-! ## Signer embedding (src/unnamed/part_000) -/

/-- The fields of a transaction that the signing hash covers
(`nonce`, `recipient`, `amount`, `payload`); spec §4.1. -/
structure TxSigBody where
  AccountNonce : Nat
  Recipient : Option Nat
  Amount : Int
  Payload : List Nat
deriving DecidableEq

/-- Signer / recovery errors surfaced by the signer code. -/
inductive SigErr where
  | invalidSig
  | invalidChainId
  | recoverFailed
  | invalidPubKey
  | wrongSigSize
deriving DecidableEq

/-- `MSigner` from part_000: a chain id together with the cached `chainId * 2`. -/
structure MSigner where
  chainId : Nat
  chainIdMul : Nat
deriving DecidableEq

/-- `NewMSigner`: builds the signer, caching `chainId * 2`. -/
def NewMSigner (chainId : Nat) : MSigner :=
  { chainId := chainId, chainIdMul := chainId * 2 }

/-- `MSigner.Equal`: two signers are equal iff their chain ids compare equal. -/
def MSigner.Equal (s : MSigner) (s2 : MSigner) : Bool :=
  s2.chainId == s.chainId

/-- A transaction as the signer sees it: signed fields, the `(r, s, v)`
signature, and the lazily stored sender cache (`tx.from`, a pair of the
signer that produced it and the recovered address). -/
structure STx where
  body : TxSigBody
  R : Nat
  S : Nat
  V : Nat
  fromCache : Option (MSigner × Nat)
deriving DecidableEq

/-- Abstract cryptographic primitives (out of scope per spec §1): ECDSA
sign/recover, the address derivations, and the Keccak-256-of-MessagePack
signing hash.  `sign hash priv` returns the 65-byte `r ‖ s ‖ recovery_id`
signature; `ecrecover hash r s v` returns the recovered public-key bytes;
`pubAddr pub` is the low 20 bytes of `Keccak256(pub[1:])`; `privAddr priv`
is the address of the private key; `hashFor chainId body` is the signing
digest over `(nonce, recipient-or-zero, amount, payload, chainId, 0, 0)`. -/
structure CryptoPrims where
  sign : Nat → Nat → List Nat
  ecrecover : Nat → Nat → Nat → Nat → Option (List Nat)
  pubAddr : List Nat → Nat
  privAddr : Nat → Nat
  hashFor : Nat → TxSigBody → Nat

/-- secp256k1 curve order. -/
def secp256k1N : Nat :=
  0xfffffffffffffffffffffffffffffffebaaedce6af48a03bbfd25e8cd0364141

def secp256k1halfN : Nat := secp256k1N / 2

/-- Modelled from the spec: `crypto.ValidateSignatureValues` (package
`utils/crypto` is not under src/); spec §4.1 step 3: homestead-style bounds
on `r`, `s` and the recovery id. -/
def ValidateSignatureValues (v r s : Nat) : Bool :=
  (v ≤ 1) && (1 ≤ r) && (1 ≤ s) && (r < secp256k1N) && (s ≤ secp256k1halfN)

/-- `deriveChainId` from part_000: chain id from the wire `v`.  The
`BitLen ≤ 64` branch computes `(v-35)/2` in `uint64` arithmetic (with
wraparound), the big branch in exact big-integer arithmetic. -/
def deriveChainId (v : Nat) : Nat :=
  if natBitLen v ≤ 64 then
    if v = 27 ∨ v = 28 then 0
    else ((v + TWO64 - 35) % TWO64) / 2
  else (v - 35) / 2

/-- Modelled from the spec: `Transaction.ChainId` (transaction.go is not
under src/); spec §3: `v` encodes the chain id per §4.1, decoded with
`deriveChainId`. -/
def STx.ChainId (tx : STx) : Nat := deriveChainId tx.V

/-- Big-endian byte decoding (`big.Int.SetBytes`). -/
def beBytes (l : List Nat) : Nat := l.foldl (fun acc b => acc * 256 + b) 0

/-- `MSigner.SignatureValues` from part_000: split a 65-byte signature into
`(r, s, v)`.  `v` is first set Frontier-style to `sig[64] + 27` (byte
arithmetic, mod 256); if the chain id is non-zero it is recomputed as
`sig[64] + 35 + chainIdMul`. -/
def MSigner.SignatureValues (s : MSigner) (sig : List Nat) :
    Except SigErr (Nat × Nat × Nat) :=
  if sig.length ≠ 65 then .error .wrongSigSize
  else
    let R := beBytes (sig.take 32)
    let S := beBytes ((sig.drop 32).take 32)
    let b := sig.getD 64 0 % 256
    if s.chainId ≠ 0 then
      .ok (R, S, (b + 35) % 256 + s.chainIdMul)
    else
      .ok (R, S, (b + 27) % 256)

/-- `MSigner.Hash` from part_000: the Keccak-256 digest of the MessagePack
encoding of `(nonce, recipient-or-zero, amount, payload, chainId, 0, 0)`,
abstracted through `CryptoPrims.hashFor`. -/
def MSigner.Hash (cp : CryptoPrims) (s : MSigner) (tx : STx) : Nat :=
  cp.hashFor s.chainId tx.body

/-- `recoverPlain` from part_000.  `v := byte(Vb.Uint64() - 27)` is `uint64`
subtraction with wraparound truncated to a byte, modelled explicitly. -/
def recoverPlain (cp : CryptoPrims) (sighash R S Vb : Nat) : Except SigErr Nat :=
  if 8 < natBitLen Vb then .error .invalidSig
  else
    let v := (Vb % TWO64 + TWO64 - 27) % TWO64 % 256
    if ¬ ValidateSignatureValues v R S then .error .invalidSig
    else
      match cp.ecrecover sighash R S v with
      | none => .error .recoverFailed
      | some pub =>
        if pub.length = 0 ∨ pub.headD 0 ≠ 4 then .error .invalidPubKey
        else .ok (cp.pubAddr pub)

/-- `MSigner.Sender` from part_000: check the embedded chain id, then strip
`chainIdMul + 8` from `v` (unconditionally) and run plain recovery.  The
`big.Int` subtraction is modelled with truncated `Nat` subtraction; on every
input reachable after the chain-id check the value is non-negative. -/
def MSigner.Sender (cp : CryptoPrims) (s : MSigner) (tx : STx) : Except SigErr Nat :=
  if tx.ChainId ≠ s.chainId then .error .invalidChainId
  else recoverPlain cp (MSigner.Hash cp s tx) tx.R tx.S (tx.V - s.chainIdMul - 8)

/-- Modelled from the spec: `Transaction.WithSignature` (transaction.go is
not under src/); spec §4.1: install `(r, s, v)` from
`signer.SignatureValues` into a fresh copy (whose sender cache is empty). -/
def withSignature (s : MSigner) (tx : STx) (sig : List Nat) : Except SigErr STx :=
  match s.SignatureValues sig with
  | .error e => .error e
  | .ok (r, sv, v) => .ok { tx with R := r, S := sv, V := v, fromCache := none }

/-- `SignTx` from part_000: hash, ECDSA-sign, attach the signature. -/
def SignTx (cp : CryptoPrims) (tx : STx) (s : MSigner) (prv : Nat) : Except SigErr STx :=
  withSignature s tx (cp.sign (MSigner.Hash cp s tx) prv)

/-- The recompute-and-memoize path of the package-level `Sender`. -/
def senderUncached (cp : CryptoPrims) (signer : MSigner) (tx : STx) :
    Except SigErr Nat × STx :=
  match MSigner.Sender cp signer tx with
  | .error e => (.error e, tx)
  | .ok addr => (.ok addr, { tx with fromCache := some (signer, addr) })

/-- Package-level `Sender` from part_000: use the cached sender when the
cached signer equals the presented one, otherwise recompute and store. -/
def Sender (cp : CryptoPrims) (signer : MSigner) (tx : STx) :
    Except SigErr Nat × STx :=
  match tx.fromCache with
  | some (cs, cfrom) =>
    if cs.Equal signer then (.ok cfrom, tx) else senderUncached cp signer tx
  | none => senderUncached cp signer tx

/-! ## Pool data model (tx_pool.go) -/

/-- A transaction as the pool sees it.  The pool's signer is fixed at
construction, and `transaction.Sender(pool.signer, tx)` is deterministic
(the sender-cache law proved below for the signer embedding), so the
recovery result is carried as the precomputed field `sender`
(`none` = recovery fails). -/
structure Tx where
  nonce : Nat
  amountOpt : Option Int
  size : Nat
  hash : Nat
  sender : Option Nat
deriving DecidableEq

/-- Modelled from the spec: `Transaction.Cost` (transaction.go is not under
src/); spec §3: `cost` = `amount` in this system. -/
def Tx.cost (tx : Tx) : Int := tx.amountOpt.getD 0

/-- Modelled from the spec: the per-account `txList` (tx_list.go is not
under src/); spec §4.2.  `txs` is kept sorted by nonce with at most one
transaction per nonce; `strict` is true for pending lists. -/
structure TxList where
  strict : Bool
  txs : List Tx
deriving DecidableEq

def insertByNonce (tx : Tx) : List Tx → List Tx
  | [] => [tx]
  | t :: rest => if tx.nonce < t.nonce then tx :: t :: rest else t :: insertByNonce tx rest

/-- Modelled from the spec: `txList.Add` — insert at the nonce; any
replacement is accepted (no fee logic); returns
`(inserted, displaced_or_none, new list)`. -/
def TxList.Add (l : TxList) (tx : Tx) : Bool × Option Tx × TxList :=
  let old := l.txs.find? (fun t => t.nonce == tx.nonce)
  let rest := l.txs.filter (fun t => t.nonce ≠ tx.nonce)
  (true, old, ⟨l.strict, insertByNonce tx rest⟩)

/-- Modelled from the spec: `txList.Overlaps` — a tx already sits at that nonce. -/
def TxList.Overlaps (l : TxList) (tx : Tx) : Bool :=
  l.txs.any (fun t => t.nonce == tx.nonce)

def TxList.Len (l : TxList) : Nat := l.txs.length

def TxList.Empty (l : TxList) : Bool := l.txs.isEmpty

def TxList.Flatten (l : TxList) : List Tx := l.txs

/-- Modelled from the spec: `txList.Forward threshold` — remove and return
every tx with nonce below the threshold. -/
def TxList.Forward (l : TxList) (threshold : Nat) : List Tx × TxList :=
  (l.txs.filter (fun t => t.nonce < threshold),
   ⟨l.strict, l.txs.filter (fun t => ¬ t.nonce < threshold)⟩)

/-- Modelled from the spec: `txList.Filter balance` — remove every tx whose
cost exceeds the balance; for strict lists additionally remove (and return
as invalids) every tx whose nonce is after the first removed nonce. -/
def TxList.Filter (l : TxList) (balance : Int) : List Tx × List Tx × TxList :=
  let drops := l.txs.filter (fun t => balance < t.cost)
  let keep := l.txs.filter (fun t => ¬ balance < t.cost)
  match drops.head? with
  | none => ([], [], l)
  | some d0 =>
    if l.strict then
      (drops, keep.filter (fun t => d0.nonce < t.nonce),
       ⟨l.strict, keep.filter (fun t => ¬ d0.nonce < t.nonce)⟩)
    else (drops, [], ⟨l.strict, keep⟩)

def readyAux : Nat → List Tx → List Tx × List Tx
  | _, [] => ([], [])
  | next, t :: rest =>
    if t.nonce = next then
      let (r, keep) := readyAux (next + 1) rest
      (t :: r, keep)
    else ([], t :: rest)

/-- Modelled from the spec: `txList.Ready start` — remove and return the
contiguous executable prefix: nothing when the lowest nonce exceeds
`start`, otherwise the gap-free run from the lowest nonce. -/
def TxList.Ready (l : TxList) (start : Nat) : List Tx × TxList :=
  match l.txs.head? with
  | none => ([], l)
  | some t0 =>
    if start < t0.nonce then ([], l)
    else
      let (r, keep) := readyAux t0.nonce l.txs
      (r, ⟨l.strict, keep⟩)

/-- Modelled from the spec: `txList.Cap n` — trim to the `n` lowest nonces,
returning the removed overflow. -/
def TxList.Cap (l : TxList) (n : Nat) : List Tx × TxList :=
  (l.txs.drop n, ⟨l.strict, l.txs.take n⟩)

/-- Modelled from the spec: `txList.Remove tx` — remove the exact tx
(matched by hash); for strict lists the subsequent-nonce txs are removed
too and returned as invalids. -/
def TxList.Remove (l : TxList) (tx : Tx) : Bool × List Tx × TxList :=
  if l.txs.any (fun t => t.hash == tx.hash) then
    let keep := l.txs.filter (fun t => t.hash ≠ tx.hash)
    if l.strict then
      (true, keep.filter (fun t => tx.nonce < t.nonce),
       ⟨l.strict, keep.filter (fun t => ¬ tx.nonce < t.nonce)⟩)
    else (true, [], ⟨l.strict, keep⟩)
  else (false, [], l)

/-- `TxPoolConfig` from tx_pool.go; durations in nanoseconds. -/
structure TxPoolConfig where
  NoLocals : Bool
  Journal : String
  Rejournal : Nat
  AccountSlots : Nat
  GlobalSlots : Nat
  AccountQueue : Nat
  GlobalQueue : Nat
  Lifetime : Nat
deriving DecidableEq

/-- `time.Second` in nanoseconds. -/
def timeSecond : Nat := 1000000000

/-- `TxPoolConfig.sanitize`: copy the config, raising a sub-second
`Rejournal` to one second. -/
def TxPoolConfig.sanitize (config : TxPoolConfig) : TxPoolConfig :=
  if config.Rejournal < timeSecond then { config with Rejournal := timeSecond }
  else config

/-- The `StateDB` collaborator (spec §6): nonce and balance queries. -/
structure StateDB where
  GetNonce : Nat → Nat
  GetBalance : Nat → Int

/-- Modelled from the spec: `state.ManagedState` (package core/state is not
under src/); spec §6: an in-memory nonce overlay over the state that never
writes back. -/
structure ManagedState where
  base : StateDB
  overlay : List (Nat × Nat)

def ManagedState.GetNonce (ms : ManagedState) (a : Nat) : Nat :=
  (alGet ms.overlay a).getD (ms.base.GetNonce a)

def ManagedState.SetNonce (ms : ManagedState) (a n : Nat) : ManagedState :=
  ⟨ms.base, alPut ms.overlay a n⟩

/-- Errors surfaced by `add` (tx_pool.go): the known-duplicate and pool-full
errors plus the `validateTx` errors. -/
inductive AddErr where
  | knownTx
  | oversized
  | wrongAmount
  | negativeValue
  | invalidSender
  | nonceTooLow
  | insufficientFunds
  | poolFull
deriving DecidableEq

/-- The mutable pool state guarded by the pool mutex, plus the journal's
content, the ordered list of emitted new-tx events (hashes sent on the tx
feed), and the clock value `time.Now()` reads. -/
structure TxPool where
  config : TxPoolConfig
  currentState : StateDB
  pendingState : ManagedState
  locals : List Nat
  journal : Option (List Tx)
  pending : List (Nat × TxList)
  queue : List (Nat × TxList)
  beats : List (Nat × Nat)
  all : List (Nat × Tx)
  events : List Nat
  now : Nat

/-- `validateTx` from tx_pool.go: size cap, non-nil non-negative amount,
sender recovery, nonce ordering, sufficient funds — in that order. -/
def validateTx (pool : TxPool) (tx : Tx) (isLocal : Bool) : Option AddErr :=
  if 32 * 1024 < tx.size then some .oversized
  else
    match tx.amountOpt with
    | none => some .wrongAmount
    | some a =>
      if a < 0 then some .negativeValue
      else
        match tx.sender with
        | none => some .invalidSender
        | some fromAddr =>
          if tx.nonce < pool.currentState.GetNonce fromAddr then some .nonceTooLow
          else if pool.currentState.GetBalance fromAddr < tx.cost then
            some .insufficientFunds
          else none

/-- `journalTx`: append to the journal when one is active and the sender is
local. -/
def journalTx (pool : TxPool) (fromAddr : Nat) (tx : Tx) : TxPool :=
  match pool.journal with
  | none => pool
  | some j =>
    if pool.locals.contains fromAddr then { pool with journal := some (j ++ [tx]) }
    else pool

/-- `enqueueTx` from tx_pool.go: insert into the sender's queued list
(created on demand).  When a tx already sat at the nonce (`old != nil`) the
code returns `(true, nil)` without touching `all`; only a brand-new nonce
records the tx in `all`. -/
def enqueueTx (pool : TxPool) (hash : Nat) (tx : Tx) : (Bool × Option AddErr) × TxPool :=
  let fromAddr := tx.sender.getD 0
  let qlist := (alGet pool.queue fromAddr).getD ⟨false, []⟩
  let (_, old, l2) := qlist.Add tx
  let pool1 := { pool with queue := alPut pool.queue fromAddr l2 }
  match old with
  | some _ => ((true, none), pool1)
  | none => ((false, none), { pool1 with all := alPut pool1.all hash tx })

/-- `promoteTx` from tx_pool.go: insert into the pending list (created on
demand); on insertion refresh the heartbeat, advance the virtual nonce and
emit a new-tx event.  The deletion of a displaced tx from `all` is
commented out in the source and therefore absent here too. -/
def promoteTx (pool : TxPool) (addr hash : Nat) (tx : Tx) : TxPool :=
  let plist := (alGet pool.pending addr).getD ⟨true, []⟩
  let (inserted, _old, l2) := plist.Add tx
  if inserted = false then
    { pool with all := alRemove pool.all hash, pending := alPut pool.pending addr plist }
  else
    let pool1 := { pool with pending := alPut pool.pending addr l2 }
    let pool2 :=
      if (alGet pool1.all hash).isNone then { pool1 with all := alPut pool1.all hash tx }
      else pool1
    { pool2 with
      beats := alPut pool2.beats addr pool2.now,
      pendingState := pool2.pendingState.SetNonce addr (tx.nonce + 1),
      events := pool2.events ++ [hash] }

/-- The enqueue tail of `add`: push into the queue, mark the sender local if
requested, journal, and return the replace flag. -/
def addEnqueue (pool : TxPool) (tx : Tx) (isLocal : Bool) (fromAddr : Nat) :
    Except AddErr Bool × TxPool :=
  match enqueueTx pool tx.hash tx with
  | ((_, some e), pool1) => (.error e, pool1)
  | ((replace, none), pool1) =>
    let pool2 :=
      if isLocal then
        { pool1 with
          locals := if pool1.locals.contains fromAddr then pool1.locals
                    else fromAddr :: pool1.locals }
      else pool1
    (.ok replace, journalTx pool2 fromAddr tx)

/-- `add` from tx_pool.go: duplicate check, validation, pool-full check,
then either the direct pending replacement or the queue path.  In the
replacement path the source only records the tx in `all` and emits an event
when `old == nil` — when a tx was displaced (`old != nil`) it returns
`(true, nil)` with `all` and the event feed untouched. -/
def add (pool : TxPool) (tx : Tx) (isLocal : Bool) : Except AddErr Bool × TxPool :=
  if (alGet pool.all tx.hash).isSome then (.error .knownTx, pool)
  else
    match validateTx pool tx isLocal with
    | some e => (.error e, pool)
    | none =>
      if pool.config.GlobalSlots + pool.config.GlobalQueue ≤ pool.all.length then
        (.error .poolFull, pool)
      else
        let fromAddr := tx.sender.getD 0
        match alGet pool.pending fromAddr with
        | some plist =>
          if plist.Overlaps tx then
            let (_, old, l2) := plist.Add tx
            let pool1 := { pool with pending := alPut pool.pending fromAddr l2 }
            match old with
            | some _ => (.ok true, pool1)
            | none =>
              let pool2 := { pool1 with all := alPut pool1.all tx.hash tx }
              let pool3 := journalTx pool2 fromAddr tx
              (.ok true, { pool3 with events := pool3.events ++ [tx.hash] })
          else addEnqueue pool tx isLocal fromAddr
        | none => addEnqueue pool tx isLocal fromAddr

/-- The future-queue tail of `removeTx`: drop the exact tx from the sender's
queued list, deleting the entry when it empties. -/
def removeFromQueue (pool : TxPool) (addr : Nat) (tx : Tx) : TxPool :=
  match alGet pool.queue addr with
  | none => pool
  | some qlist =>
    let (_, _, l2) := qlist.Remove tx
    if l2.Empty then { pool with queue := alRemove pool.queue addr }
    else { pool with queue := alPut pool.queue addr l2 }

/-- `removeTx` from tx_pool.go: look the hash up in `all` and delete it;
when the tx sits in the sender's pending list, remove it there, re-enqueue
the invalidated strict tail (only when the list stays non-empty), and lower
the virtual nonce to the removed nonce if it was higher; otherwise remove
it from the future queue. -/
def removeTx (pool : TxPool) (hash : Nat) : TxPool :=
  match alGet pool.all hash with
  | none => pool
  | some tx =>
    let addr := tx.sender.getD 0
    let pool1 := { pool with all := alRemove pool.all hash }
    match alGet pool1.pending addr with
    | some plist =>
      match plist.Remove tx with
      | (true, invalids, l2) =>
        let pool2 :=
          if l2.Empty then
            { pool1 with
              pending := alRemove pool1.pending addr,
              beats := alRemove pool1.beats addr }
          else
            invalids.foldl (fun p t => (enqueueTx p t.hash t).2)
              { pool1 with pending := alPut pool1.pending addr l2 }
        if tx.nonce < pool2.pendingState.GetNonce addr then
          { pool2 with pendingState := pool2.pendingState.SetNonce addr tx.nonce }
        else pool2
      | (false, _, _) => removeFromQueue pool1 addr tx
    | none => removeFromQueue pool1 addr tx

/-- The per-account loop body of `promoteExecutables`: forward stale txs,
filter insolvent ones, promote the ready prefix, cap non-local queues, and
drop the queue entry when it empties. -/
def processAccount (pool : TxPool) (addr : Nat) : TxPool :=
  match alGet pool.queue addr with
  | none => pool
  | some qlist =>
    let (forwarded, l1) := qlist.Forward (pool.currentState.GetNonce addr)
    let pool1 := { pool with all := forwarded.foldl (fun m (t : Tx) => alRemove m t.hash) pool.all }
    let (drops, _, l2) := l1.Filter (pool1.currentState.GetBalance addr)
    let pool2 := { pool1 with all := drops.foldl (fun m (t : Tx) => alRemove m t.hash) pool1.all }
    let (readyTxs, l3) := l2.Ready (pool2.pendingState.GetNonce addr)
    let pool3 := readyTxs.foldl (fun p t => promoteTx p addr t.hash t) pool2
    let (capped, l4) :=
      if pool3.locals.contains addr then (([] : List Tx), l3)
      else l3.Cap pool3.config.AccountQueue
    let pool4 := { pool3 with all := capped.foldl (fun m (t : Tx) => alRemove m t.hash) pool3.all }
    if l4.Empty then { pool4 with queue := alRemove pool4.queue addr }
    else { pool4 with queue := alPut pool4.queue addr l4 }

def pendingTotal (pool : TxPool) : Nat :=
  pool.pending.foldl (fun n e => n + e.2.Len) 0

def queuedTotal (pool : TxPool) : Nat :=
  pool.queue.foldl (fun n e => n + e.2.Len) 0

def pendingLenOf (pool : TxPool) (addr : Nat) : Nat :=
  ((alGet pool.pending addr).getD ⟨true, []⟩).Len

/-- One `list.Cap(list.Len()-1)` pass of the pending-cap equalization:
drop the highest-nonce pending tx of the address from the list and from
`all`, lowering the virtual nonce to the dropped nonce if it was higher. -/
def capOneTx (pool : TxPool) (addr : Nat) : TxPool :=
  match alGet pool.pending addr with
  | none => pool
  | some l =>
    let (dropped, l2) := l.Cap (l.Len - 1)
    let pool1 := { pool with pending := alPut pool.pending addr l2 }
    dropped.foldl (fun p t =>
      let p1 := { p with all := alRemove p.all t.hash }
      if t.nonce < p1.pendingState.GetNonce addr then
        { p1 with pendingState := p1.pendingState.SetNonce addr t.nonce }
      else p1) pool1

/-- Pop the entry with the greatest priority from the spam queue
(`prque` keyed by pending-list length). -/
def popMaxAux (best : Nat × Nat) (acc : List (Nat × Nat)) :
    List (Nat × Nat) → (Nat × Nat) × List (Nat × Nat)
  | [] => (best, acc.reverse)
  | x :: rest =>
    if best.2 < x.2 then popMaxAux x (best :: acc) rest
    else popMaxAux best (x :: acc) rest

def popMax : List (Nat × Nat) → Option ((Nat × Nat) × List (Nat × Nat))
  | [] => none
  | x :: rest => some (popMaxAux x [] rest)

/-- The inner equalization loop: while the pending total is over the global
cap and the previous offender still exceeds the threshold, shrink every
earlier offender by one tx. -/
def innerEqualize (fuel : Nat) (pool : TxPool) (offenders : List Nat)
    (threshold pending : Nat) : TxPool × Nat :=
  match fuel with
  | 0 => (pool, pending)
  | fuel + 1 =>
    if pending ≤ pool.config.GlobalSlots then (pool, pending)
    else
      let prev := ((offenders.reverse.drop 1).head?).getD 0
      if pendingLenOf pool prev ≤ threshold then (pool, pending)
      else
        let pool2 := offenders.dropLast.foldl capOneTx pool
        innerEqualize fuel pool2 offenders threshold (pending - offenders.dropLast.length)

/-- The outer spammers loop: pop the next offender and equalize down to its
length. -/
def outerSpam (fuel : Nat) (pool : TxPool) (spammers : List (Nat × Nat))
    (offenders : List Nat) (pending : Nat) : TxPool × List Nat × Nat :=
  match fuel with
  | 0 => (pool, offenders, pending)
  | fuel + 1 =>
    if pending ≤ pool.config.GlobalSlots then (pool, offenders, pending)
    else
      match popMax spammers with
      | none => (pool, offenders, pending)
      | some (top, rest) =>
        let offenders2 := offenders ++ [top.1]
        if offenders2.length ≤ 1 then outerSpam fuel pool rest offenders2 pending
        else
          let threshold := pendingLenOf pool top.1
          let (pool2, pending2) :=
            innerEqualize (pending + 1) pool offenders2 threshold pending
          outerSpam fuel pool2 rest offenders2 pending2

/-- The final uniform reduction: shrink every offender by one until the
global cap or the per-account allowance is reached. -/
def finalReduce (fuel : Nat) (pool : TxPool) (offenders : List Nat) (pending : Nat) :
    TxPool × Nat :=
  match fuel with
  | 0 => (pool, pending)
  | fuel + 1 =>
    if pending ≤ pool.config.GlobalSlots then (pool, pending)
    else
      let lastOff := (offenders.getLast?).getD 0
      if pendingLenOf pool lastOff ≤ pool.config.AccountSlots then (pool, pending)
      else
        let pool2 := offenders.foldl capOneTx pool
        finalReduce fuel pool2 offenders (pending - offenders.length)

/-- The global pending cap enforcement of `promoteExecutables`
(tx_pool.go lines 874-943). -/
def pendingCapPhase (pool : TxPool) : TxPool :=
  let pending := pendingTotal pool
  if pending ≤ pool.config.GlobalSlots then pool
  else
    let spammers := pool.pending.filterMap (fun e =>
      if pool.locals.contains e.1 then none
      else if pool.config.AccountSlots < e.2.Len then some (e.1, e.2.Len)
      else none)
    let r := outerSpam (spammers.length + 1) pool spammers [] pending
    let pool1 := r.1
    let offenders := r.2.1
    let pending1 := r.2.2
    if pool.config.GlobalSlots < pending1 ∧ offenders ≠ [] then
      (finalReduce (pending1 + 1) pool1 offenders pending1).1
    else pool1

def insertBeat (x : Nat × Nat) : List (Nat × Nat) → List (Nat × Nat)
  | [] => [x]
  | y :: rest => if x.2 < y.2 then x :: y :: rest else y :: insertBeat x rest

/-- `sort.Sort(addresssByHeartbeat)`: ascending by heartbeat (oldest first). -/
def sortByBeat : List (Nat × Nat) → List (Nat × Nat)
  | [] => []
  | x :: rest => insertBeat x (sortByBeat rest)

/-- The queue-overflow eviction loop of `promoteExecutables`
(tx_pool.go lines 963-988).  The Go loop repeatedly takes
`addresses[len(addresses)-1]` — the end of the ascending-by-heartbeat
array — so it is modelled head-first on the reversed (descending) list:
the sender with the newest heartbeat is processed first. -/
def dropLoop (pool : TxPool) (addrs : List (Nat × Nat)) (drop : Nat) : TxPool :=
  match addrs with
  | [] => pool
  | ab :: rest =>
    if drop = 0 then pool
    else
      let list := (alGet pool.queue ab.1).getD ⟨false, []⟩
      if list.Len ≤ drop then
        let pool1 := list.Flatten.foldl (fun p t => removeTx p t.hash) pool
        dropLoop pool1 rest (drop - list.Len)
      else
        let txs := list.Flatten
        let pool1 := (txs.reverse.take drop).foldl (fun p t => removeTx p t.hash) pool
        dropLoop pool1 rest 0

/-- The non-local queued senders paired with their heartbeats, as gathered
by the queued-cap enforcement. -/
def queueAddresses (pool : TxPool) : List (Nat × Nat) :=
  pool.queue.filterMap (fun e =>
    if pool.locals.contains e.1 then none
    else some (e.1, (alGet pool.beats e.1).getD 0))

/-- The global queued cap enforcement of `promoteExecutables`
(tx_pool.go lines 944-989): gather non-local queued senders with their
heartbeats, sort ascending, and drop from the end of the array. -/
def queueCapPhase (pool : TxPool) : TxPool :=
  let queued := queuedTotal pool
  if queued ≤ pool.config.GlobalQueue then pool
  else
    dropLoop pool (sortByBeat (queueAddresses pool)).reverse
      (queued - pool.config.GlobalQueue)

/-- `promoteExecutables` from tx_pool.go: per-account promotion (over the
given accounts, or every queued sender), then the global pending cap, then
the global queued cap. -/
def promoteExecutables (pool : TxPool) (accounts : Option (List Nat)) : TxPool :=
  let accs : List Nat :=
    match accounts with
    | none => pool.queue.map (fun e => e.1)
    | some l => l
  queueCapPhase (pendingCapPhase (accs.foldl processAccount pool))

/-- `addTx` from tx_pool.go: run `add`; on success of a non-replacement, run
promotion for the sender. -/
def addTx (pool : TxPool) (tx : Tx) (isLocal : Bool) : Option AddErr × TxPool :=
  match add pool tx isLocal with
  | (.error e, pool1) => (some e, pool1)
  | (.ok replace, pool1) =>
    if replace then (none, pool1)
    else (none, promoteExecutables pool1 (some [tx.sender.getD 0]))

/-- `AddLocal`: enqueue marking the sender local unless `NoLocals`. -/
def AddLocal (pool : TxPool) (tx : Tx) : Option AddErr × TxPool :=
  addTx pool tx (!pool.config.NoLocals)

/-- `AddRemote`: enqueue without local privileges. -/
def AddRemote (pool : TxPool) (tx : Tx) : Option AddErr × TxPool :=
  addTx pool tx false

/-- `NewTxPool` (the in-memory initialisation): sanitize the config, start
from empty maps, and create a journal only when locals are enabled and a
journal path is configured. -/
def mkPool (config : TxPoolConfig) (st : StateDB) (now : Nat) : TxPool :=
  let conf := config.sanitize
  { config := conf
    currentState := st
    pendingState := ⟨st, []⟩
    locals := []
    journal := if ¬ conf.NoLocals ∧ conf.Journal ≠ "" then some [] else none
    pending := []
    queue := []
    beats := []
    all := []
    events := []
    now := now }

/-! ## The `all = pending ∪ queued` invariant (spec §3, §8.1) -/

def listHasHash (l : TxList) (h : Nat) : Bool :=
  l.txs.any (fun t => t.hash == h)

/-- Decidable statement of the claimed invariant: every entry of `all` sits
in exactly one of its sender's pending or queued lists, and every listed tx
appears in `all` under its hash. -/
def allUnionOK (pool : TxPool) : Bool :=
  (pool.all.all (fun e =>
    match e.2.sender with
    | none => false
    | some a =>
      let inP := match alGet pool.pending a with
        | some l => listHasHash l e.1
        | none => false
      let inQ := match alGet pool.queue a with
        | some l => listHasHash l e.1
        | none => false
      inP != inQ)) &&
  ((pool.pending ++ pool.queue).all (fun e =>
    e.2.txs.all (fun t =>
      match alGet pool.all t.hash with
      | some tx' => tx' == t
      | none => false)))

/-! ## Concrete scenarios -/

/-- A chain state with every nonce 0 and every balance 100. -/
def stA : StateDB := ⟨fun _ => 0, fun _ => 100⟩

/-- The default configuration (journal disabled so the scenario is
journal-free). -/
def cfg0 : TxPoolConfig :=
  ⟨false, "", 3600000000000, 16, 4096, 64, 1024, 10800000000000⟩

/-- First submission of sender 7 at nonce 0. -/
def tx1 : Tx := ⟨0, some 1, 100, 101, some 7⟩

/-- Second, distinct submission of sender 7 at the same nonce 0. -/
def tx2 : Tx := ⟨0, some 2, 100, 102, some 7⟩

def pool0 : TxPool := mkPool cfg0 stA 1000

/-- Pool after admitting `tx1` (enqueued, then promoted to pending). -/
def pool1 : TxPool := (addTx pool0 tx1 false).2

/-- Pool after additionally admitting the replacement `tx2`. -/
def poolRepl : TxPool := (addTx pool1 tx2 false).2

/-- An oversized transaction (> 32 KiB). -/
def txBig : Tx := ⟨0, some 1, 40000, 999, some 7⟩

/-- Queued-only transactions of senders 11, 12, 13 at nonce 1 (a gap above
the account nonce 0, so none is promotable). -/
def txQA : Tx := ⟨1, some 1, 100, 201, some 11⟩

def txQB : Tx := ⟨1, some 1, 100, 202, some 12⟩

def txQC : Tx := ⟨1, some 1, 100, 203, some 13⟩

def qlA : TxList := ⟨false, [txQA]⟩

def qlB : TxList := ⟨false, [txQB]⟩

def qlC : TxList := ⟨false, [txQC]⟩

/-- `GlobalQueue = 2` configuration for the heartbeat-eviction scenario. -/
def cfgQ : TxPoolConfig :=
  ⟨false, "", 3600000000000, 16, 4096, 64, 2, 10800000000000⟩

/-- The S5 state: three queued-only senders, heartbeats 0 < 1 < 2, three
queued transactions against `GlobalQueue = 2`. -/
def poolQ : TxPool :=
  { config := cfgQ
    currentState := stA
    pendingState := ⟨stA, []⟩
    locals := []
    journal := none
    pending := []
    queue := [(11, qlA), (12, qlB), (13, qlC)]
    beats := [(11, 0), (12, 1), (13, 2)]
    all := [(201, txQA), (202, txQB), (203, txQC)]
    events := []
    now := 5 }

def poolQevicted : TxPool := promoteExecutables poolQ none

/-! ## Concrete crypto instance and ownership predicate -/

/-- A concrete 65-byte signature: `r = 1`, `s = 1`, recovery id `0`. -/
def sigW0 : List Nat :=
  List.replicate 31 0 ++ [1] ++ (List.replicate 31 0 ++ [1]) ++ [0]

/-- A concrete, executable stand-in for the cryptographic primitives that
satisfies the round-trip assumptions: signing always yields `sigW0`,
recovery succeeds exactly on legal recovery ids, and the recovered address
coincides with the key's address. -/
def cp0 : CryptoPrims :=
  { sign := fun _ _ => sigW0
    ecrecover := fun _ _ _ v => if v ≤ 1 then some [4, 7] else none
    pubAddr := fun _ => 9
    privAddr := fun _ => 9
    hashFor := fun _ _ => 5 }

/-- An unsigned transaction body. -/
def tx00 : STx := ⟨⟨0, none, 0, []⟩, 0, 0, 0, none⟩

/-- `tx00` signed with `cp0` under chain id 0 (`v = 0 + 27`). -/
def txSigned0 : STx := ⟨⟨0, none, 0, []⟩, 1, 1, 27, none⟩

/-- `tx00` signed with `cp0` under chain id 1 (`v = 0 + 35 + 2`). -/
def txSigned1 : STx := ⟨⟨0, none, 0, []⟩, 1, 1, 37, none⟩

/-- The sender cache of a transaction is either empty or records a
well-formed signer together with exactly the address that signer's
recovery computes on this transaction — the only states the package-level
`Sender` ever stores. -/
def SenderCacheOK (cp : CryptoPrims) (tx : STx) : Prop :=
  ∀ cs cfrom, tx.fromCache = some (cs, cfrom) →
    cs.chainIdMul = cs.chainId * 2 ∧ MSigner.Sender cp cs tx = .ok cfrom

/-- Well-formedness of a sender's queued transactions as the eviction loop
relies on it: each queued tx of `m` recovers to `m`, is registered in `all`
under its hash, does not also sit in `m`'s pending list, and the hashes in
the list are pairwise distinct. -/
def QueueOwnerOK (p : TxPool) (m : Nat) : Prop :=
  (∀ tx ∈ ((alGet p.queue m).getD ⟨false, []⟩).txs,
    tx.sender = some m ∧ alGet p.all tx.hash = some tx ∧
    ∀ l, alGet p.pending m = some l → listHasHash l tx.hash = false) ∧
  ((alGet p.queue m).getD ⟨false, []⟩).txs.Pairwise (fun a b => a.hash ≠ b.hash)


/-! ## Helper lemmas -/

theorem alGet_put_ne {α : Type} [DecidableEq α] {β : Type} (l : List (α × β)) (k k' : α)
    (v : β) (h : k' ≠ k) : alGet (alPut l k v) k' = alGet l k' := by
  induction l with
  | nil =>
    have hk : ¬ k = k' := fun hh => h hh.symm
    simp [alPut, alGet, hk]
  | cons e rest ih =>
    obtain ⟨a, b⟩ := e
    by_cases hak : a = k
    · subst hak
      have hk : ¬ a = k' := fun hh => h hh.symm
      simp [alPut, alGet, hk]
    · simp only [alPut, if_neg hak, alGet]
      by_cases hak' : a = k'
      · simp [hak']
      · simp [hak', ih]

theorem alGet_remove_ne {α : Type} [DecidableEq α] {β : Type} (l : List (α × β)) (k k' : α)
    (h : k' ≠ k) : alGet (alRemove l k) k' = alGet l k' := by
  induction l with
  | nil => simp [alRemove]
  | cons e rest ih =>
    obtain ⟨a, b⟩ := e
    by_cases hak : a = k
    · subst hak
      have hk : ¬ a = k' := fun hh => h hh.symm
      simp only [alRemove, if_pos rfl, alGet]
      simp [hk, ih]
    · simp only [alRemove, if_neg hak, alGet]
      by_cases hak' : a = k'
      · simp [hak']
      · simp [hak', ih]

theorem bitLenAux_bound : ∀ fuel n k : Nat, n ≤ fuel → bitLenAux fuel n ≤ k → n < 2 ^ k := by
  intro fuel
  induction fuel with
  | zero =>
    intro n k hn _
    have : n = 0 := by omega
    subst this
    exact Nat.pos_pow_of_pos k (by omega)
  | succ fuel ih =>
    intro n k hn h
    by_cases h0 : n = 0
    · subst h0
      exact Nat.pos_pow_of_pos k (by omega)
    · simp only [bitLenAux, if_neg h0] at h
      cases k with
      | zero => omega
      | succ k =>
        have hdiv : n / 2 ≤ fuel := by omega
        have hlt : n / 2 < 2 ^ k := ih (n / 2) k hdiv (by omega)
        have h2 : 2 ^ (k + 1) = 2 ^ k * 2 := by rw [pow_succ]
        omega

theorem natBitLen_bound (n k : Nat) (h : natBitLen n ≤ k) : n < 2 ^ k :=
  bitLenAux_bound n n k (le_refl n) h

/-- The wire `v` of a non-zero chain id decodes back to the chain id. -/
theorem deriveChainId_wire (recid c : Nat) (hr : recid ≤ 1) :
    deriveChainId (recid + 35 + 2 * c) = c := by
  by_cases hb : natBitLen (recid + 35 + 2 * c) ≤ 64
  · have hlt : recid + 35 + 2 * c < 2 ^ 64 := natBitLen_bound _ _ hb
    have h2728 : ¬ (recid + 35 + 2 * c = 27 ∨ recid + 35 + 2 * c = 28) := by omega
    simp only [deriveChainId, if_pos hb, if_neg h2728, TWO64]
    have he : recid + 35 + 2 * c + 2 ^ 64 - 35 = recid + 2 * c + 2 ^ 64 := by omega
    rw [he, Nat.add_mod_right, Nat.mod_eq_of_lt (by omega)]
    omega
  · simp only [deriveChainId, if_neg hb]
    omega

/-! ## C10: v-encoding round-trip -/

/-- C10 — For every recovery id in {0,1} and every chain id `c`,
`deriveChainId` applied to the wire `v` produced by
`MSigner.SignatureValues` under a signer of chain id `c` returns `c`. -/
theorem deriveChainId_roundtrip (c : Nat) (sig : List Nat)
    (hlen : sig.length = 65) (hrec : sig.getD 64 0 ≤ 1) :
    ∀ r s v, (NewMSigner c).SignatureValues sig = .ok (r, s, v) →
      deriveChainId v = c := by
  intro r s v h
  have hrec' : sig[64]?.getD 0 ≤ 1 := by simpa [List.getD] using hrec
  by_cases hc : c = 0
  · subst hc
    simp only [MSigner.SignatureValues, NewMSigner, hlen] at h
    simp at h
    obtain ⟨_, _, hv⟩ := h
    have : v = sig[64]?.getD 0 + 27 := by omega
    have h2728 : v = 27 ∨ v = 28 := by omega
    rcases h2728 with hv' | hv' <;> subst hv' <;> decide
  · simp only [MSigner.SignatureValues, NewMSigner, hlen] at h
    simp [hc] at h
    obtain ⟨_, _, hv⟩ := h
    have hv2 : v = sig[64]?.getD 0 + 35 + 2 * c := by omega
    rw [hv2]
    exact deriveChainId_wire _ c hrec'

/-- Witness for C10 at chain id 5 and the concrete signature `sigW0`. -/
theorem deriveChainId_roundtrip_witness : deriveChainId 45 = 5 :=
  deriveChainId_roundtrip 5 sigW0 (by decide) (by decide) 1 1 45 (by rfl)

/-! ## C9: sanitize -/

/-- C9 — `sanitize` returns a copy whose `Rejournal` is the provided value
when that value is at least one second and exactly one second otherwise,
with every other field unchanged. -/
theorem sanitize_rejournal_only (c : TxPoolConfig) :
    (timeSecond ≤ c.Rejournal → c.sanitize = c) ∧
    (c.Rejournal < timeSecond → c.sanitize.Rejournal = timeSecond) ∧
    c.sanitize.NoLocals = c.NoLocals ∧
    c.sanitize.Journal = c.Journal ∧
    c.sanitize.AccountSlots = c.AccountSlots ∧
    c.sanitize.GlobalSlots = c.GlobalSlots ∧
    c.sanitize.AccountQueue = c.AccountQueue ∧
    c.sanitize.GlobalQueue = c.GlobalQueue ∧
    c.sanitize.Lifetime = c.Lifetime := by
  by_cases h : c.Rejournal < timeSecond
  · refine ⟨fun hge => absurd hge (by omega), fun _ => ?_, ?_, ?_, ?_, ?_, ?_, ?_, ?_⟩ <;>
      simp [TxPoolConfig.sanitize, h]
  · refine ⟨fun _ => ?_, fun hlt => absurd hlt h, ?_, ?_, ?_, ?_, ?_, ?_, ?_⟩ <;>
      simp [TxPoolConfig.sanitize, h]

/-- Witness for C9 at a sub-second and an over-second configuration. -/
theorem sanitize_rejournal_only_witness :
    (TxPoolConfig.sanitize ⟨false, "j", 7, 1, 2, 3, 4, 5⟩).Rejournal = timeSecond ∧
    TxPoolConfig.sanitize ⟨true, "k", 2000000000, 1, 2, 3, 4, 5⟩ =
      ⟨true, "k", 2000000000, 1, 2, 3, 4, 5⟩ :=
  ⟨(sanitize_rejournal_only ⟨false, "j", 7, 1, 2, 3, 4, 5⟩).2.1 (by decide),
   (sanitize_rejournal_only ⟨true, "k", 2000000000, 1, 2, 3, 4, 5⟩).1 (by decide)⟩

/-! ## C1 and C2: the pending-replacement path breaks `all` and the event feed -/

/-- C1 — Starting from the empty pool, admitting sender 7's `tx1` (nonce 0,
promoted to pending) and then the distinct replacement `tx2` at the same
nonce leaves the pool in a state violating the `all = pending ∪ queued`
invariant: both `addTx` calls succeed, the invariant holds after the first,
and fails after the second (`all` still maps `tx1.hash` to the displaced
`tx1`, while the pending `tx2` is absent from `all`). -/
theorem all_union_invariant_broken :
    (addTx pool0 tx1 false).1 = none ∧
    allUnionOK pool1 = true ∧
    (addTx pool1 tx2 false).1 = none ∧
    allUnionOK poolRepl = false :=
  ⟨rfl, rfl, rfl, rfl⟩

/-- C2 — In the same scenario, `add` of the replacement returns
`replace = true` and the pending list of sender 7 holds exactly `tx2`, but
`all` does not contain `tx2` under its hash (it still maps `tx1.hash` to
`tx1`) and no new-tx event is emitted beyond the first admission's event
(the event list stays `[tx1.hash]`). -/
theorem replacement_all_and_event_broken :
    (add pool1 tx2 false).1 = .ok true ∧
    (match alGet (add pool1 tx2 false).2.pending 7 with
     | some l => l.txs
     | none => []) = [tx2] ∧
    alGet (add pool1 tx2 false).2.all 102 = none ∧
    alGet (add pool1 tx2 false).2.all 101 = some tx1 ∧
    (add pool1 tx2 false).2.events = [101] ∧
    pool1.events = [101] :=
  ⟨rfl, rfl, rfl, rfl, rfl, rfl⟩

/-! ## C5 counterexample: eviction drops the newest heartbeat first -/

/-- Counterexample for C5 — In the state posited by the claim
(`GlobalQueue = 2`, queued-only senders 11, 12, 13 with heartbeats
0 < 1 < 2 and one queued tx each), the overflow eviction at the end of
`promoteExecutables` removes sender 13's entries — the NEWEST heartbeat —
while the entries of senders 11 (oldest) and 12 remain; the claim predicts
sender 11's entries are removed first. -/
theorem queue_eviction_oldest_first_cex :
    queuedTotal poolQ = 3 ∧
    poolQ.config.GlobalQueue = 2 ∧
    alGet poolQevicted.queue 11 = some qlA ∧
    alGet poolQevicted.queue 12 = some qlB ∧
    alGet poolQevicted.queue 13 = none ∧
    alGet poolQevicted.all 203 = none ∧
    alGet poolQevicted.all 201 = some txQA ∧
    alGet poolQevicted.all 202 = some txQB :=
  ⟨rfl, rfl, rfl, rfl, rfl, rfl, rfl, rfl⟩

/-! ## C6 counterexample: the round-trip fails at chain id 0 -/

/-- Counterexample for C6 — With the concrete crypto stand-in `cp0` (whose
recovery succeeds exactly on the legal recovery ids 0 and 1 and returns the
key's address), a transaction freshly signed under chain id 0 does NOT
recover: `MSigner.Sender` strips `2·chainId + 8 = 8` from `v = 27`
unconditionally, producing the out-of-range recovery value 248, so `Sender`
returns `ErrInvalidSig` — while the very same primitives round-trip fine
under chain id 1. -/
theorem sender_roundtrip_chain0_cex :
    SignTx cp0 tx00 (NewMSigner 0) 1 = .ok txSigned0 ∧
    (Sender cp0 (NewMSigner 0) txSigned0).1 = .error SigErr.invalidSig ∧
    SignTx cp0 tx00 (NewMSigner 1) 1 = .ok txSigned1 ∧
    (Sender cp0 (NewMSigner 1) txSigned1).1 = .ok (cp0.privAddr 1) :=
  ⟨rfl, rfl, rfl, rfl⟩

/-! ## C3: validateTx checks in order, first failure wins -/

/-- C3 — `validateTx` checks its conditions in a fixed order with the first
failure winning: oversize, nil amount, negative amount, sender recovery,
nonce too low, insufficient funds; otherwise success. -/
theorem validateTx_first_failure_wins (pool : TxPool) (tx : Tx) (isLocal : Bool) :
    (32 * 1024 < tx.size → validateTx pool tx isLocal = some .oversized) ∧
    (tx.size ≤ 32 * 1024 → tx.amountOpt = none →
      validateTx pool tx isLocal = some .wrongAmount) ∧
    (∀ a : Int, tx.size ≤ 32 * 1024 → tx.amountOpt = some a → a < 0 →
      validateTx pool tx isLocal = some .negativeValue) ∧
    (∀ a : Int, tx.size ≤ 32 * 1024 → tx.amountOpt = some a → 0 ≤ a →
      tx.sender = none → validateTx pool tx isLocal = some .invalidSender) ∧
    (∀ (a : Int) (f : Nat), tx.size ≤ 32 * 1024 → tx.amountOpt = some a → 0 ≤ a →
      tx.sender = some f → tx.nonce < pool.currentState.GetNonce f →
      validateTx pool tx isLocal = some .nonceTooLow) ∧
    (∀ (a : Int) (f : Nat), tx.size ≤ 32 * 1024 → tx.amountOpt = some a → 0 ≤ a →
      tx.sender = some f → pool.currentState.GetNonce f ≤ tx.nonce →
      pool.currentState.GetBalance f < tx.cost →
      validateTx pool tx isLocal = some .insufficientFunds) ∧
    (∀ (a : Int) (f : Nat), tx.size ≤ 32 * 1024 → tx.amountOpt = some a → 0 ≤ a →
      tx.sender = some f → pool.currentState.GetNonce f ≤ tx.nonce →
      tx.cost ≤ pool.currentState.GetBalance f →
      validateTx pool tx isLocal = none) := by
  refine ⟨?_, ?_, ?_, ?_, ?_, ?_, ?_⟩
  · intro h
    simp [validateTx, h]
  · intro h1 h2
    simp [validateTx, h2, Nat.not_lt.mpr h1]
  · intro a h1 h2 h3
    simp [validateTx, h2, Nat.not_lt.mpr h1, h3]
  · intro a h1 h2 h3 h4
    simp [validateTx, h2, Nat.not_lt.mpr h1, not_lt.mpr h3, h4]
  · intro a f h1 h2 h3 h4 h5
    simp [validateTx, h2, Nat.not_lt.mpr h1, not_lt.mpr h3, h4, h5]
  · intro a f h1 h2 h3 h4 h5 h6
    simp [validateTx, h2, Nat.not_lt.mpr h1, not_lt.mpr h3, h4, Nat.not_lt.mpr h5, h6]
  · intro a f h1 h2 h3 h4 h5 h6
    simp [validateTx, h2, Nat.not_lt.mpr h1, not_lt.mpr h3, h4, Nat.not_lt.mpr h5,
      not_lt.mpr h6]

/-- Witness for C3: the oversized branch at a concrete transaction and the
success branch at a concrete valid transaction. -/
theorem validateTx_first_failure_wins_witness :
    validateTx pool0 txBig false = some .oversized ∧
    validateTx pool0 tx1 false = none :=
  ⟨(validateTx_first_failure_wins pool0 txBig false).1 (by decide),
   (validateTx_first_failure_wins pool0 tx1 false).2.2.2.2.2.2 1 7 (by decide) rfl
     (by decide) rfl (by decide) (by decide)⟩

/-! ## C7: sender-cache determinism -/

/-- `MSigner.Sender` reads only the signed fields, never the cache. -/
theorem msigner_sender_cache_irrel (cp : CryptoPrims) (s : MSigner) (tx : STx)
    (x : Option (MSigner × Nat)) :
    MSigner.Sender cp s { tx with fromCache := x } = MSigner.Sender cp s tx := rfl

/-- Two well-formed signers with equal chain ids compute the same sender. -/
theorem msigner_sender_chain_only (cp : CryptoPrims) (s1 s2 : MSigner) (tx : STx)
    (h1 : s1.chainIdMul = s1.chainId * 2) (h2 : s2.chainIdMul = s2.chainId * 2)
    (he : s1.chainId = s2.chainId) :
    MSigner.Sender cp s1 tx = MSigner.Sender cp s2 tx := by
  obtain ⟨c1, m1⟩ := s1
  obtain ⟨c2, m2⟩ := s2
  simp only at h1 h2 he
  subst he
  subst h1
  subst h2
  rfl

/-- The first component of a recompute equals the plain signer computation. -/
theorem senderUncached_fst (cp : CryptoPrims) (s : MSigner) (tx : STx) :
    (senderUncached cp s tx).1 = MSigner.Sender cp s tx := by
  unfold senderUncached
  cases MSigner.Sender cp s tx <;> rfl

/-- C7 — `Sender` is deterministic: under a consistent cache its result is
exactly the fresh computation of the presented signer; two well-formed
signers of equal chain id receive the same result; and the call preserves
cache consistency (so every cache the code ever produces satisfies the
hypothesis). -/
theorem sender_cache_deterministic (cp : CryptoPrims) (s1 s2 : MSigner) (tx : STx)
    (h1 : s1.chainIdMul = s1.chainId * 2) (h2 : s2.chainIdMul = s2.chainId * 2)
    (he : s1.chainId = s2.chainId) (hc : SenderCacheOK cp tx) :
    (Sender cp s1 tx).1 = MSigner.Sender cp s1 tx ∧
    (Sender cp s1 tx).1 = (Sender cp s2 tx).1 ∧
    SenderCacheOK cp (Sender cp s1 tx).2 := by
  have key : ∀ s : MSigner, s.chainIdMul = s.chainId * 2 →
      (Sender cp s tx).1 = MSigner.Sender cp s tx := by
    intro s hs
    unfold Sender
    cases hfc : tx.fromCache with
    | none => exact senderUncached_fst cp s tx
    | some p =>
      obtain ⟨cs, cfrom⟩ := p
      by_cases heq : cs.Equal s
      · have hcs := hc cs cfrom hfc
        have hchain : s.chainId = cs.chainId := by
          have := of_decide_eq_true (by simpa [MSigner.Equal] using heq)
          exact this
        simp only [heq, if_pos, if_true]
        rw [msigner_sender_chain_only cp s cs tx hs hcs.1 hchain, hcs.2]
      · simp only [heq, if_false, Bool.false_eq_true, if_neg, not_false_iff]
        exact senderUncached_fst cp s tx
  refine ⟨key s1 h1, ?_, ?_⟩
  · rw [key s1 h1, key s2 h2]
    exact msigner_sender_chain_only cp s1 s2 tx h1 h2 he
  · unfold Sender
    cases hfc : tx.fromCache with
    | none =>
      unfold senderUncached
      cases hms : MSigner.Sender cp s1 tx with
      | error e => simpa [hfc] using hc
      | ok addr =>
        intro cs cfrom hstore
        simp only at hstore
        obtain ⟨rfl, rfl⟩ : cs = s1 ∧ cfrom = addr := by
          constructor <;> [skip; skip] <;> injection hstore with h' <;> simp_all
        exact ⟨h1, by rw [msigner_sender_cache_irrel]; exact hms⟩
    | some p =>
      obtain ⟨cs, cfrom⟩ := p
      by_cases heq : cs.Equal s1
      · simpa [heq, hfc] using hc
      · simp only [heq, if_false, Bool.false_eq_true, if_neg, not_false_iff]
        unfold senderUncached
        cases hms : MSigner.Sender cp s1 tx with
        | error e => simpa [hfc] using hc
        | ok addr =>
          intro cs' cfrom' hstore
          simp only at hstore
          obtain ⟨rfl, rfl⟩ : cs' = s1 ∧ cfrom' = addr := by
            constructor <;> [skip; skip] <;> injection hstore with h' <;> simp_all
          exact ⟨h1, by rw [msigner_sender_cache_irrel]; exact hms⟩

/-- Witness for C7 at the concrete primitives `cp0`, signer of chain id 1,
and the cache-free transaction `txSigned1`. -/
theorem sender_cache_deterministic_witness :
    (Sender cp0 (NewMSigner 1) txSigned1).1 =
      MSigner.Sender cp0 (NewMSigner 1) txSigned1 :=
  (sender_cache_deterministic cp0 (NewMSigner 1) (NewMSigner 1) txSigned1 rfl rfl rfl
    (fun _ _ h => nomatch h)).1

/-! ## C6 amended: the signature round-trip holds for every non-zero chain id -/

/-- C6 (amended) — For every private key and every NON-ZERO chain id, under
the assumptions the spec makes of the cryptographic primitives (a 65-byte
signature whose recovery id is 0 or 1 and passes the curve bounds, and
whose public-key recovery returns the signing key's address), a freshly
signed transaction recovers to the key's address.  (At chain id 0 the
round-trip fails; see the counterexample.) -/
theorem sender_roundtrip_nonzero_chain (cp : CryptoPrims) (c prv : Nat) (tx : STx)
    (pub : List Nat) (hc : c ≠ 0)
    (hlen : (cp.sign (cp.hashFor c tx.body) prv).length = 65)
    (hrecid : (cp.sign (cp.hashFor c tx.body) prv).getD 64 0 ≤ 1)
    (hvalid : ValidateSignatureValues ((cp.sign (cp.hashFor c tx.body) prv).getD 64 0)
      (beBytes ((cp.sign (cp.hashFor c tx.body) prv).take 32))
      (beBytes (((cp.sign (cp.hashFor c tx.body) prv).drop 32).take 32)) = true)
    (hrec : cp.ecrecover (cp.hashFor c tx.body)
      (beBytes ((cp.sign (cp.hashFor c tx.body) prv).take 32))
      (beBytes (((cp.sign (cp.hashFor c tx.body) prv).drop 32).take 32))
      ((cp.sign (cp.hashFor c tx.body) prv).getD 64 0) = some pub)
    (hplen : pub.length ≠ 0) (hphead : pub.headD 0 = 4)
    (haddr : cp.pubAddr pub = cp.privAddr prv) :
    ∃ txS, SignTx cp tx (NewMSigner c) prv = .ok txS ∧
      (Sender cp (NewMSigner c) txS).1 = .ok (cp.privAddr prv) := by
  set sg := cp.sign (cp.hashFor c tx.body) prv with hsg
  set g := sg.getD 64 0 with hgdef
  set R := beBytes (sg.take 32) with hRdef
  set S := beBytes ((sg.drop 32).take 32) with hSdef
  have hg256 : g % 256 = g := Nat.mod_eq_of_lt (by omega)
  have h35 : (g + 35) % 256 = g + 35 := Nat.mod_eq_of_lt (by omega)
  have hsv : (NewMSigner c).SignatureValues sg = .ok (R, S, g + 35 + c * 2) := by
    unfold MSigner.SignatureValues
    rw [if_neg (by simp [hlen])]
    have hcn : (NewMSigner c).chainId ≠ 0 := by simpa [NewMSigner] using hc
    rw [if_pos hcn]
    show Except.ok (beBytes (sg.take 32), beBytes ((sg.drop 32).take 32),
      (sg.getD 64 0 % 256 + 35) % 256 + (NewMSigner c).chainIdMul) = _
    rw [← hgdef, hg256, h35]
    rfl
  refine ⟨⟨tx.body, R, S, g + 35 + c * 2, none⟩, ?_, ?_⟩
  · unfold SignTx withSignature MSigner.Hash
    rw [show (NewMSigner c).chainId = c from rfl, ← hsg, hsv]
  · have hchain : (STx.mk tx.body R S (g + 35 + c * 2) none).ChainId = c := by
      show deriveChainId (g + 35 + c * 2) = c
      have hcomm : g + 35 + c * 2 = g + 35 + 2 * c := by ring
      rw [hcomm]
      exact deriveChainId_wire g c hrecid
    show (senderUncached cp (NewMSigner c) _).1 = _
    rw [senderUncached_fst]
    unfold MSigner.Sender
    rw [if_neg (by simp [hchain, NewMSigner])]
    have hVb : (STx.mk tx.body R S (g + 35 + c * 2) none).V -
        (NewMSigner c).chainIdMul - 8 = g + 27 := by
      show g + 35 + c * 2 - c * 2 - 8 = g + 27
      omega
    rw [hVb, show MSigner.Hash cp (NewMSigner c) (STx.mk tx.body R S (g + 35 + c * 2)
      none) = cp.hashFor c tx.body from rfl]
    have hg01 : g = 0 ∨ g = 1 := by omega
    have hbl : ¬ 8 < natBitLen (g + 27) := by
      rcases hg01 with h | h <;> rw [h] <;> decide
    have h256T : (256 : Nat) < TWO64 := by decide
    have hvg : (g + 27) % TWO64 + TWO64 - 27 = g + TWO64 := by
      have hlt : g + 27 < TWO64 := by omega
      rw [Nat.mod_eq_of_lt hlt]
      omega
    have hvg2 : (g + TWO64) % TWO64 % 256 = g := by
      rw [Nat.add_mod_right]
      have hlt2 : g < TWO64 := by omega
      rw [Nat.mod_eq_of_lt hlt2]
      exact hg256
    simp only [recoverPlain]
    rw [if_neg hbl, hvg, hvg2]
    rw [if_neg (by simp [hvalid])]
    rw [hrec]
    show (if pub.length = 0 ∨ pub.headD 0 ≠ 4 then Except.error SigErr.invalidPubKey
      else Except.ok (cp.pubAddr pub)) = Except.ok (cp.privAddr prv)
    rw [if_neg (by push_neg; exact ⟨hplen, hphead⟩), haddr]

/-- Witness for C6's amended theorem at chain id 1 with the concrete
primitives `cp0`. -/
theorem sender_roundtrip_nonzero_chain_witness :
    ∃ txS, SignTx cp0 tx00 (NewMSigner 1) 1 = .ok txS ∧
      (Sender cp0 (NewMSigner 1) txS).1 = .ok (cp0.privAddr 1) :=
  sender_roundtrip_nonzero_chain cp0 1 1 tx00 [4, 7] (by decide) (by decide) (by decide)
    (by decide) (by rfl) (by decide) (by decide) (by rfl)

/-! ## C4: a failing add leaves the pool unchanged -/

/-- `enqueueTx` never reports an error. -/
theorem enqueueTx_no_error (pool : TxPool) (h : Nat) (tx : Tx) :
    (enqueueTx pool h tx).1.2 = none := by
  unfold enqueueTx
  rcases hAdd : ((alGet pool.queue (tx.sender.getD 0)).getD ⟨false, []⟩).Add tx
    with ⟨i, old, l2⟩
  cases old <;> simp [hAdd]

/-- The enqueue tail of `add` never returns an error. -/
theorem addEnqueue_no_error (pool : TxPool) (tx : Tx) (isLocal : Bool) (fromAddr : Nat)
    (e : AddErr) : (addEnqueue pool tx isLocal fromAddr).1 ≠ .error e := by
  unfold addEnqueue
  rcases heq : enqueueTx pool tx.hash tx with ⟨⟨rep, oe⟩, p1⟩
  have hoe : oe = none := by
    have := enqueueTx_no_error pool tx.hash tx
    rw [heq] at this
    exact this
  subst hoe
  simp

/-- C4 — Whenever `add` returns an error (known duplicate, any validation
failure, or pool full), the pool state — `all`, pending, queued, beats,
locals, journal, events and the virtual nonces — is exactly the state
before the call. -/
theorem add_error_pool_unchanged (pool : TxPool) (tx : Tx) (isLocal : Bool) (e : AddErr)
    (h : (add pool tx isLocal).1 = .error e) : (add pool tx isLocal).2 = pool := by
  revert h
  unfold add
  split
  · intro _; rfl
  · split
    · intro _; rfl
    · split
      · intro _; rfl
      · dsimp only
        split
        · split
          · split
            · intro h
              exact absurd h (by simp)
            · intro h
              exact absurd h (by simp)
          · intro h
            exact absurd h (addEnqueue_no_error pool tx isLocal (tx.sender.getD 0) e)
        · intro h
          exact absurd h (addEnqueue_no_error pool tx isLocal (tx.sender.getD 0) e)

/-- Witness for C4: an oversized transaction is rejected and the concrete
pool `pool0` is returned untouched. -/
theorem add_error_pool_unchanged_witness :
    (add pool0 txBig false).2 = pool0 :=
  add_error_pool_unchanged pool0 txBig false .oversized (by rfl)

/-! ## C8: with NoLocals, AddLocal is AddRemote -/

/-- A one-second-resolution equality of the fields C8 talks about. -/
def LJeq (q p : TxPool) : Prop := q.locals = p.locals ∧ q.journal = p.journal

theorem LJeq.rfl' {p : TxPool} : LJeq p p := ⟨rfl, rfl⟩

theorem LJeq.trans' {r q p : TxPool} (h1 : LJeq r q) (h2 : LJeq q p) : LJeq r p :=
  ⟨h1.1.trans h2.1, h1.2.trans h2.2⟩

theorem foldl_lj {α : Type} (f : TxPool → α → TxPool)
    (hf : ∀ p x, LJeq (f p x) p) :
    ∀ (xs : List α) (p : TxPool), LJeq (xs.foldl f p) p := by
  intro xs
  induction xs with
  | nil => intro p; exact LJeq.rfl'
  | cons x xs ih => intro p; exact (ih (f p x)).trans' (hf p x)

theorem enqueueTx_lj (p : TxPool) (h : Nat) (tx : Tx) : LJeq (enqueueTx p h tx).2 p := by
  unfold enqueueTx
  rcases hAdd : ((alGet p.queue (tx.sender.getD 0)).getD ⟨false, []⟩).Add tx
    with ⟨i, old, l2⟩
  cases old <;> simp [hAdd, LJeq]

theorem promoteTx_lj (p : TxPool) (addr h : Nat) (tx : Tx) :
    LJeq (promoteTx p addr h tx) p := by
  unfold promoteTx
  rcases hAdd : ((alGet p.pending addr).getD ⟨true, []⟩).Add tx with ⟨i, old, l2⟩
  simp only [hAdd]
  split
  · exact ⟨rfl, rfl⟩
  · split <;> exact ⟨rfl, rfl⟩

theorem removeFromQueue_lj (p : TxPool) (addr : Nat) (tx : Tx) :
    LJeq (removeFromQueue p addr tx) p := by
  unfold removeFromQueue
  split
  · exact LJeq.rfl'
  · split
    split <;> exact ⟨rfl, rfl⟩

theorem removeTx_lj (p : TxPool) (h : Nat) : LJeq (removeTx p h) p := by
  unfold removeTx
  split
  · exact LJeq.rfl'
  · dsimp only
    split
    · split
      · have hf := foldl_lj (fun q t => (enqueueTx q t.hash t).2)
          (fun q t => enqueueTx_lj q t.hash t)
        split <;> split
        · exact ⟨rfl, rfl⟩
        · exact ⟨rfl, rfl⟩
        · exact ⟨(hf _ _).1, (hf _ _).2⟩
        · exact ⟨(hf _ _).1, (hf _ _).2⟩
      · exact (removeFromQueue_lj _ _ _).trans' ⟨rfl, rfl⟩
    · exact (removeFromQueue_lj _ _ _).trans' ⟨rfl, rfl⟩

theorem capOneTx_lj (p : TxPool) (addr : Nat) : LJeq (capOneTx p addr) p := by
  unfold capOneTx
  split
  · exact LJeq.rfl'
  · dsimp only
    refine (foldl_lj _ ?_ _ _).trans' ⟨rfl, rfl⟩
    intro q t
    dsimp only
    split <;> exact ⟨rfl, rfl⟩

theorem processAccount_lj (p : TxPool) (addr : Nat) : LJeq (processAccount p addr) p := by
  unfold processAccount
  split
  · exact LJeq.rfl'
  · dsimp only
    have hf := foldl_lj (α := Tx) (fun q t => promoteTx q addr t.hash t)
      (fun q t => promoteTx_lj q addr t.hash t)
    repeat' split
    all_goals exact ⟨(hf _ _).1, (hf _ _).2⟩

theorem innerEqualize_lj (fuel : Nat) :
    ∀ (p : TxPool) (offenders : List Nat) (threshold pending : Nat),
      LJeq (innerEqualize fuel p offenders threshold pending).1 p := by
  induction fuel with
  | zero => intro p o t pe; exact LJeq.rfl'
  | succ fuel ih =>
    intro p o t pe
    simp only [innerEqualize]
    split
    · exact LJeq.rfl'
    · split
      · exact LJeq.rfl'
      · exact (ih _ _ _ _).trans'
          (foldl_lj capOneTx (fun q a => capOneTx_lj q a) _ _)

theorem outerSpam_lj (fuel : Nat) :
    ∀ (p : TxPool) (spammers : List (Nat × Nat)) (offenders : List Nat) (pending : Nat),
      LJeq (outerSpam fuel p spammers offenders pending).1 p := by
  induction fuel with
  | zero => intro p s o pe; exact LJeq.rfl'
  | succ fuel ih =>
    intro p s o pe
    simp only [outerSpam]
    split
    · exact LJeq.rfl'
    · split
      · exact LJeq.rfl'
      · split
        · exact ih _ _ _ _
        · exact (ih _ _ _ _).trans' (innerEqualize_lj _ _ _ _ _)

theorem finalReduce_lj (fuel : Nat) :
    ∀ (p : TxPool) (offenders : List Nat) (pending : Nat),
      LJeq (finalReduce fuel p offenders pending).1 p := by
  induction fuel with
  | zero => intro p o pe; exact LJeq.rfl'
  | succ fuel ih =>
    intro p o pe
    simp only [finalReduce]
    split
    · exact LJeq.rfl'
    · split
      · exact LJeq.rfl'
      · exact (ih _ _ _).trans' (foldl_lj capOneTx (fun q a => capOneTx_lj q a) _ _)

theorem pendingCapPhase_lj (p : TxPool) : LJeq (pendingCapPhase p) p := by
  unfold pendingCapPhase
  dsimp only
  split
  · exact LJeq.rfl'
  · split
    · exact (finalReduce_lj _ _ _ _).trans' (outerSpam_lj _ _ _ _ _)
    · exact outerSpam_lj _ _ _ _ _

theorem dropLoop_lj : ∀ (addrs : List (Nat × Nat)) (p : TxPool) (drop : Nat),
    LJeq (dropLoop p addrs drop) p := by
  intro addrs
  induction addrs with
  | nil => intro p d; exact LJeq.rfl'
  | cons ab rest ih =>
    intro p d
    simp only [dropLoop]
    have hf := foldl_lj (α := Tx) (fun q t => removeTx q t.hash)
      (fun q t => removeTx_lj q t.hash)
    split
    · exact LJeq.rfl'
    · split
      · exact (ih _ _).trans' (hf _ _)
      · exact (ih _ _).trans' (hf _ _)

theorem queueCapPhase_lj (p : TxPool) : LJeq (queueCapPhase p) p := by
  unfold queueCapPhase
  dsimp only
  split
  · exact LJeq.rfl'
  · exact dropLoop_lj _ _ _

theorem promoteExecutables_lj (p : TxPool) (accounts : Option (List Nat)) :
    LJeq (promoteExecutables p accounts) p := by
  unfold promoteExecutables
  exact ((queueCapPhase_lj _).trans' (pendingCapPhase_lj _)).trans'
    (foldl_lj processAccount (fun q a => processAccount_lj q a) _ _)

/-- With no journal configured, `journalTx` is the identity. -/
theorem journalTx_none (p : TxPool) (fromAddr : Nat) (tx : Tx) (h : p.journal = none) :
    journalTx p fromAddr tx = p := by
  unfold journalTx
  rw [h]

theorem journalTx_lj (p : TxPool) (fromAddr : Nat) (tx : Tx) (hj : p.journal = none) :
    LJeq (journalTx p fromAddr tx) p := by
  rw [journalTx_none p fromAddr tx hj]
  exact LJeq.rfl'

theorem journalTx_locals (p : TxPool) (fromAddr : Nat) (tx : Tx) :
    (journalTx p fromAddr tx).locals = p.locals := by
  unfold journalTx
  split
  · rfl
  · split <;> rfl

theorem journalTx_journal_none (p : TxPool) (fromAddr : Nat) (tx : Tx)
    (hj : p.journal = none) : (journalTx p fromAddr tx).journal = none := by
  unfold journalTx
  split
  · exact hj
  · rename_i j hsome
    rw [hj] at hsome
    cases hsome

theorem addEnqueue_false_lj (p : TxPool) (tx : Tx) (fromAddr : Nat)
    (hj : p.journal = none) : LJeq (addEnqueue p tx false fromAddr).2 p := by
  unfold addEnqueue
  rcases heq : enqueueTx p tx.hash tx with ⟨⟨rep, oe⟩, p1⟩
  have hlj : LJeq p1 p := by
    have h := enqueueTx_lj p tx.hash tx
    rw [heq] at h
    exact h
  cases oe with
  | some e => exact hlj
  | none =>
    dsimp only
    exact (journalTx_lj p1 fromAddr tx (hlj.2.trans hj)).trans' hlj

theorem add_false_lj (p : TxPool) (tx : Tx) (hj : p.journal = none) :
    LJeq (add p tx false).2 p := by
  unfold add
  split
  · exact LJeq.rfl'
  · split
    · exact LJeq.rfl'
    · split
      · exact LJeq.rfl'
      · dsimp only
        split
        · split
          · split
            · exact ⟨rfl, rfl⟩
            · refine ⟨?_, ?_⟩
              · show (journalTx _ (tx.sender.getD 0) tx).locals = p.locals
                exact (journalTx_locals _ _ _).trans rfl
              · show (journalTx _ (tx.sender.getD 0) tx).journal = p.journal
                refine (journalTx_journal_none _ _ _ ?_).trans hj.symm
                exact hj
          · exact addEnqueue_false_lj p tx (tx.sender.getD 0) hj
        · exact addEnqueue_false_lj p tx (tx.sender.getD 0) hj

theorem addTx_false_lj (p : TxPool) (tx : Tx) (hj : p.journal = none) :
    LJeq (addTx p tx false).2 p := by
  unfold addTx
  rcases h : add p tx false with ⟨r, p1⟩
  have hlj : LJeq p1 p := by
    have h' := add_false_lj p tx hj
    rw [h] at h'
    exact h'
  cases r with
  | error e => exact hlj
  | ok replace =>
    dsimp only
    split
    · exact hlj
    · exact (promoteExecutables_lj _ _).trans' hlj

/-- C8 — With `NoLocals` set, `AddLocal` is observationally identical to
`AddRemote`: the very same state transition and result, the locals set is
never extended, no journal exists on such a pool and none is created by
`NewTxPool`. -/
theorem nolocals_addlocal_is_addremote (pool : TxPool) (tx : Tx)
    (hnl : pool.config.NoLocals = true) (hj : pool.journal = none) :
    AddLocal pool tx = AddRemote pool tx ∧
    ((AddLocal pool tx).2).locals = pool.locals ∧
    ((AddLocal pool tx).2).journal = none ∧
    (∀ (cfg : TxPoolConfig) (st : StateDB) (now : Nat), cfg.NoLocals = true →
      (mkPool cfg st now).journal = none) := by
  have hmain : AddLocal pool tx = AddRemote pool tx := by
    unfold AddLocal AddRemote
    rw [hnl]
    rfl
  refine ⟨hmain, ?_, ?_, ?_⟩
  · rw [hmain]
    exact (addTx_false_lj pool tx hj).1
  · rw [hmain]
    exact (addTx_false_lj pool tx hj).2.trans hj
  · intro cfg st now hcfg
    have hsan : cfg.sanitize.NoLocals = true := by
      unfold TxPoolConfig.sanitize
      split <;> simpa using hcfg
    unfold mkPool
    simp [hsan]

/-- Witness for C8 on a concrete `NoLocals` pool. -/
theorem nolocals_addlocal_is_addremote_witness :
    AddLocal (mkPool ⟨true, "x", 3600000000000, 16, 4096, 64, 1024, 10800000000000⟩
      stA 0) tx1 =
    AddRemote (mkPool ⟨true, "x", 3600000000000, 16, 4096, 64, 1024, 10800000000000⟩
      stA 0) tx1 :=
  (nolocals_addlocal_is_addremote _ tx1 rfl rfl).1

/-! ## C5 amended: the eviction drops from the NEWEST heartbeat first -/

theorem removeFromQueue_queue_ne (p : TxPool) (m : Nat) (tx : Tx) (b : Nat)
    (hb : b ≠ m) : alGet (removeFromQueue p m tx).queue b = alGet p.queue b := by
  unfold removeFromQueue
  split
  · rfl
  · split
    split
    · exact alGet_remove_ne _ _ _ hb
    · exact alGet_put_ne _ _ _ _ hb

theorem removeFromQueue_pending (p : TxPool) (m : Nat) (tx : Tx) :
    (removeFromQueue p m tx).pending = p.pending := by
  unfold removeFromQueue
  split
  · rfl
  · split
    split <;> rfl

theorem removeFromQueue_all (p : TxPool) (m : Nat) (tx : Tx) :
    (removeFromQueue p m tx).all = p.all := by
  unfold removeFromQueue
  split
  · rfl
  · split
    split <;> rfl

/-- When the hash is registered in `all` as a transaction of sender `m` that
is absent from `m`'s pending list, `removeTx` reduces to deleting the hash
from `all` and removing the tx from `m`'s queued list. -/
theorem removeTx_of_queued (p : TxPool) (m : Nat) (tx : Tx)
    (hall : alGet p.all tx.hash = some tx) (hsend : tx.sender = some m)
    (hpend : ∀ l, alGet p.pending m = some l → listHasHash l tx.hash = false) :
    removeTx p tx.hash =
      removeFromQueue { p with all := alRemove p.all tx.hash } m tx := by
  unfold removeTx
  rw [hall]
  dsimp only
  rw [hsend]
  simp only [Option.getD_some]
  cases halp : alGet p.pending m with
  | none => rfl
  | some plist =>
    dsimp only
    have hrem : plist.Remove tx = (false, [], plist) := by
      have hno := hpend plist halp
      simp only [listHasHash] at hno
      unfold TxList.Remove
      rw [hno]
      simp
    rw [hrem]

/-- Folding `removeTx` over transactions of sender `m` (each registered in
`all`, recovering to `m`, absent from `m`'s pending list, with pairwise
distinct hashes) touches only `m`'s queued list and the affected `all`
entries: every other sender's queue entry, the whole pending map, and every
`all` entry of a different sender survive. -/
theorem removeTxs_fold (m : Nat) :
    ∀ (txs : List Tx) (p : TxPool),
      (∀ tx ∈ txs, tx.sender = some m ∧ alGet p.all tx.hash = some tx ∧
        (∀ l, alGet p.pending m = some l → listHasHash l tx.hash = false)) →
      txs.Pairwise (fun a b => a.hash ≠ b.hash) →
      (∀ b, b ≠ m →
        alGet (txs.foldl (fun q t => removeTx q t.hash) p).queue b = alGet p.queue b) ∧
      (txs.foldl (fun q t => removeTx q t.hash) p).pending = p.pending ∧
      (∀ h tx', alGet p.all h = some tx' → tx'.sender ≠ some m →
        alGet (txs.foldl (fun q t => removeTx q t.hash) p).all h = some tx') := by
  intro txs
  induction txs with
  | nil =>
    intro p _ _
    exact ⟨fun b _ => rfl, rfl, fun h tx' hh _ => hh⟩
  | cons t rest ih =>
    intro p hyp hpw
    obtain ⟨hsend, hall, hpend⟩ := hyp t (List.mem_cons_self t rest)
    have hstep := removeTx_of_queued p m t hall hsend hpend
    have hq1 : ∀ b, b ≠ m →
        alGet (removeTx p t.hash).queue b = alGet p.queue b := by
      intro b hb
      rw [hstep]
      exact removeFromQueue_queue_ne _ m t b hb
    have hp1 : (removeTx p t.hash).pending = p.pending := by
      rw [hstep, removeFromQueue_pending]
    have ha1 : (removeTx p t.hash).all = alRemove p.all t.hash := by
      rw [hstep, removeFromQueue_all]
    have hhyp' : ∀ tx ∈ rest, tx.sender = some m ∧
        alGet (removeTx p t.hash).all tx.hash = some tx ∧
        (∀ l, alGet (removeTx p t.hash).pending m = some l →
          listHasHash l tx.hash = false) := by
      intro tx htx
      obtain ⟨h1, h2, h3⟩ := hyp tx (List.mem_cons_of_mem t htx)
      have hne : tx.hash ≠ t.hash := (List.rel_of_pairwise_cons hpw htx).symm
      refine ⟨h1, ?_, ?_⟩
      · rw [ha1, alGet_remove_ne _ _ _ hne]
        exact h2
      · intro l hl
        rw [hp1] at hl
        exact h3 l hl
    have hres := ih (removeTx p t.hash) hhyp' (List.Pairwise.of_cons hpw)
    refine ⟨?_, ?_, ?_⟩
    · intro b hb
      simp only [List.foldl_cons]
      rw [hres.1 b hb, hq1 b hb]
    · simp only [List.foldl_cons]
      rw [hres.2.1, hp1]
    · intro h tx' hh hs
      simp only [List.foldl_cons]
      apply hres.2.2
      · have hne : h ≠ t.hash := by
          intro he
          subst he
          rw [hall] at hh
          cases hh
          exact hs hsend
        rw [ha1, alGet_remove_ne _ _ _ hne]
        exact hh
      · exact hs

theorem dropLoop_zero (addrs : List (Nat × Nat)) (p : TxPool) :
    dropLoop p addrs 0 = p := by
  cases addrs with
  | nil => rfl
  | cons ab rest => simp [dropLoop]

/-- The per-tx hypotheses of `removeTxs_fold`, packaged for the owner of a
queued list. -/
theorem queueOwner_hyp (p : TxPool) (m : Nat) (hok : QueueOwnerOK p m) :
    ∀ tx ∈ ((alGet p.queue m).getD ⟨false, []⟩).txs,
      tx.sender = some m ∧ alGet p.all tx.hash = some tx ∧
      (∀ l, alGet p.pending m = some l → listHasHash l tx.hash = false) :=
  hok.1

/-- Processing (a subset of) `m`'s queued transactions preserves
`QueueOwnerOK` for every other sender. -/
theorem queueOwnerOK_preserved (p : TxPool) (m a : Nat) (txs : List Tx) (ha : a ≠ m)
    (hyp : ∀ tx ∈ txs, tx.sender = some m ∧ alGet p.all tx.hash = some tx ∧
      (∀ l, alGet p.pending m = some l → listHasHash l tx.hash = false))
    (hpw : txs.Pairwise (fun x y => x.hash ≠ y.hash))
    (hok : QueueOwnerOK p a) :
    QueueOwnerOK (txs.foldl (fun q t => removeTx q t.hash) p) a := by
  obtain ⟨hq, hpres, hallp⟩ := removeTxs_fold m txs p hyp hpw
  constructor
  · intro tx htx
    rw [hq a ha] at htx
    obtain ⟨h1, h2, h3⟩ := hok.1 tx htx
    refine ⟨h1, ?_, ?_⟩
    · apply hallp _ _ h2
      rw [h1]
      intro hcontra
      exact ha (by injection hcontra)
    · intro l hl
      rw [hpres] at hl
      exact h3 l hl
  · rw [hq a ha]
    exact hok.2

theorem pairwise_hash_of_take_reverse (txs : List Tx) (d : Nat)
    (h : txs.Pairwise (fun x y => x.hash ≠ y.hash)) :
    (txs.reverse.take d).Pairwise (fun x y => x.hash ≠ y.hash) := by
  apply List.Pairwise.sublist (List.take_sublist d txs.reverse)
  rw [List.pairwise_reverse]
  exact h.imp (fun hne => Ne.symm hne)

theorem mem_of_mem_take_reverse (txs : List Tx) (d : Nat) (tx : Tx)
    (h : tx ∈ txs.reverse.take d) : tx ∈ txs := by
  have := List.take_subset d txs.reverse h
  rwa [List.mem_reverse] at this

/-- The queue-overflow loop leaves untouched the queued list of every sender
that is not among the listed (all distinct, owner-consistent) addresses. -/
theorem dropLoop_other :
    ∀ (addrs : List (Nat × Nat)) (p : TxPool) (drop : Nat) (b : Nat),
      (∀ ab ∈ addrs, ab.1 ≠ b) →
      addrs.Pairwise (fun x y => x.1 ≠ y.1) →
      (∀ ab ∈ addrs, QueueOwnerOK p ab.1) →
      alGet (dropLoop p addrs drop).queue b = alGet p.queue b := by
  intro addrs
  induction addrs with
  | nil => intro p d b _ _ _; rfl
  | cons ab rest ih =>
    intro p d b hne hpw hok
    have hOK : QueueOwnerOK p ab.1 := hok ab (List.mem_cons_self ab rest)
    simp only [dropLoop]
    split
    · rfl
    · split
      · -- drop everything of ab.1, recurse on the rest
        have hyp := queueOwner_hyp p ab.1 hOK
        have hfold := removeTxs_fold ab.1 _ p hyp hOK.2
        rw [ih _ _ b (fun x hx => hne x (List.mem_cons_of_mem ab hx))
          (List.Pairwise.of_cons hpw) ?hoks]
        · exact hfold.1 b (fun hb => hne ab (List.mem_cons_self ab rest) hb.symm)
        case hoks =>
          intro x hx
          exact queueOwnerOK_preserved p ab.1 x.1 _
            (fun he => List.rel_of_pairwise_cons hpw hx he.symm) hyp hOK.2
            (hok x (List.mem_cons_of_mem ab hx))
      · -- drop only the newest-nonce suffix, then the loop ends
        have hyp0 := queueOwner_hyp p ab.1 hOK
        have hyp : ∀ tx ∈ (((alGet p.queue ab.1).getD ⟨false, []⟩).Flatten.reverse.take d),
            tx.sender = some ab.1 ∧ alGet p.all tx.hash = some tx ∧
            (∀ l, alGet p.pending ab.1 = some l → listHasHash l tx.hash = false) := by
          intro tx htx
          exact hyp0 tx (mem_of_mem_take_reverse _ d tx htx)
        have hfold := removeTxs_fold ab.1 _ p hyp
          (pairwise_hash_of_take_reverse _ d hOK.2)
        rw [ih _ _ b (fun x hx => hne x (List.mem_cons_of_mem ab hx))
          (List.Pairwise.of_cons hpw) ?hoks2]
        · exact hfold.1 b (fun hb => hne ab (List.mem_cons_self ab rest) hb.symm)
        case hoks2 =>
          intro x hx
          exact queueOwnerOK_preserved p ab.1 x.1 _
            (fun he => List.rel_of_pairwise_cons hpw hx he.symm) hyp
            (pairwise_hash_of_take_reverse _ d hOK.2)
            (hok x (List.mem_cons_of_mem ab hx))

/-- When the overflow fits within the newest-heartbeat sender's queued list,
the loop drops only that sender's transactions: every other sender's queue
entry is untouched. -/
theorem dropLoop_newest_only (p : TxPool) (m bt : Nat) (rest : List (Nat × Nat))
    (drop b : Nat) (hb : b ≠ m) (h0 : 0 < drop)
    (hsz : drop ≤ ((alGet p.queue m).getD ⟨false, []⟩).Len)
    (hok : QueueOwnerOK p m) :
    alGet (dropLoop p ((m, bt) :: rest) drop).queue b = alGet p.queue b := by
  simp only [dropLoop]
  rw [if_neg (by omega)]
  split
  · rename_i hle
    have hz : drop - ((alGet p.queue m).getD ⟨false, []⟩).Len = 0 := by omega
    rw [hz, dropLoop_zero]
    exact (removeTxs_fold m _ p (queueOwner_hyp p m hok) hok.2).1 b
      (fun he => hb he)
  · rw [dropLoop_zero]
    refine (removeTxs_fold m _ p ?_ (pairwise_hash_of_take_reverse _ drop hok.2)).1 b
      (fun he => hb he)
    intro tx htx
    exact (queueOwner_hyp p m hok) tx (mem_of_mem_take_reverse _ drop tx htx)

theorem insertBeat_perm (x : Nat × Nat) (l : List (Nat × Nat)) :
    (insertBeat x l).Perm (x :: l) := by
  induction l with
  | nil => exact List.Perm.refl _
  | cons y rest ih =>
    unfold insertBeat
    split
    · exact List.Perm.refl _
    · exact (List.Perm.cons y ih).trans (List.Perm.swap x y rest)

theorem sortByBeat_perm (l : List (Nat × Nat)) : (sortByBeat l).Perm l := by
  induction l with
  | nil => exact List.Perm.refl _
  | cons x rest ih =>
    unfold sortByBeat
    exact (insertBeat_perm x (sortByBeat rest)).trans (List.Perm.cons x ih)

theorem mem_sortByBeat_reverse (l : List (Nat × Nat)) (ab : Nat × Nat) :
    ab ∈ (sortByBeat l).reverse ↔ ab ∈ l := by
  rw [List.mem_reverse]
  exact (sortByBeat_perm l).mem_iff

theorem pairwise_keys_sortByBeat_reverse (l : List (Nat × Nat))
    (h : l.Pairwise (fun x y => x.1 ≠ y.1)) :
    ((sortByBeat l).reverse).Pairwise (fun x y => x.1 ≠ y.1) := by
  rw [List.pairwise_reverse]
  have hs : (sortByBeat l).Pairwise (fun x y => x.1 ≠ y.1) :=
    ((sortByBeat_perm l).pairwise_iff (fun h => Ne.symm h)).mpr h
  exact hs.imp (fun hne => Ne.symm hne)

theorem queueAddresses_key_not_local (p : TxPool) (ab : Nat × Nat)
    (hab : ab ∈ queueAddresses p) : p.locals.contains ab.1 = false := by
  unfold queueAddresses at hab
  rw [List.mem_filterMap] at hab
  obtain ⟨e, _, he⟩ := hab
  by_cases hc : p.locals.contains e.1
  · rw [if_pos hc] at he
    cases he
  · rw [if_neg hc] at he
    cases he
    simpa using hc

theorem queueAddresses_keys_pairwise (p : TxPool)
    (h : p.queue.Pairwise (fun x y => x.1 ≠ y.1)) :
    (queueAddresses p).Pairwise (fun x y => x.1 ≠ y.1) := by
  unfold queueAddresses
  rw [List.pairwise_filterMap]
  refine h.imp_of_mem ?_
  intro a c _ _ hne x hx y hy
  by_cases hca : p.locals.contains a.1
  · rw [if_pos hca] at hx; cases hx
  · rw [if_neg hca] at hx
    cases hx
    by_cases hcc : p.locals.contains c.1
    · rw [if_pos hcc] at hy; cases hy
    · rw [if_neg hcc] at hy
      cases hy
      exact hne

/-- The queued-cap phase never touches a local sender's queue entry. -/
theorem queueCapPhase_locals_kept (p : TxPool) (b : Nat)
    (hb : p.locals.contains b = true)
    (hpw : p.queue.Pairwise (fun x y => x.1 ≠ y.1))
    (hok : ∀ ab ∈ queueAddresses p, QueueOwnerOK p ab.1) :
    alGet (queueCapPhase p).queue b = alGet p.queue b := by
  unfold queueCapPhase
  dsimp only
  split
  · rfl
  · apply dropLoop_other
    · intro ab hab
      have := queueAddresses_key_not_local p ab
        ((mem_sortByBeat_reverse _ ab).mp hab)
      intro he
      rw [he, hb] at this
      cases this
    · exact pairwise_keys_sortByBeat_reverse _ (queueAddresses_keys_pairwise p hpw)
    · intro ab hab
      exact hok ab ((mem_sortByBeat_reverse _ ab).mp hab)

/-- C5 (amended) — When the queued total exceeds `GlobalQueue` at the end of
`promoteExecutables`, transactions are dropped starting from the non-local
queued sender with the NEWEST heartbeat (largest beats timestamp),
proceeding toward older heartbeats, and local senders are never dropped by
this quota.  In particular, with `GlobalQueue = 2` and queued-only senders
11 (beat 0), 12 (beat 1), 13 (beat 2), the overflow eviction removes
13's entries — the oldest-beat sender 11's entries are kept. -/
theorem queue_eviction_newest_first :
    (alGet poolQevicted.queue 11 = some qlA ∧ alGet poolQevicted.queue 12 = some qlB ∧
      alGet poolQevicted.queue 13 = none ∧ alGet poolQevicted.all 203 = none) ∧
    (∀ (p : TxPool) (m bt : Nat) (rest : List (Nat × Nat)) (drop b : Nat),
      b ≠ m → 0 < drop → drop ≤ ((alGet p.queue m).getD ⟨false, []⟩).Len →
      QueueOwnerOK p m →
      alGet (dropLoop p ((m, bt) :: rest) drop).queue b = alGet p.queue b) ∧
    (∀ (p : TxPool) (b : Nat), p.locals.contains b = true →
      p.queue.Pairwise (fun x y => x.1 ≠ y.1) →
      (∀ ab ∈ queueAddresses p, QueueOwnerOK p ab.1) →
      alGet (queueCapPhase p).queue b = alGet p.queue b) :=
  ⟨⟨rfl, rfl, rfl, rfl⟩,
   fun p m bt rest drop b hb h0 hsz hok =>
     dropLoop_newest_only p m bt rest drop b hb h0 hsz hok,
   fun p b hb hpw hok => queueCapPhase_locals_kept p b hb hpw hok⟩

/-- Witness for C5's amended theorem: in the concrete scenario the loop with
the newest sender 13 at its head leaves the oldest sender 11 untouched. -/
theorem queue_eviction_newest_first_witness :
    alGet (dropLoop poolQ [(13, 2), (12, 1), (11, 0)] 1).queue 11 =
      alGet poolQ.queue 11 :=
  queue_eviction_newest_first.2.1 poolQ 13 2 [(12, 1), (11, 0)] 1 11 (by decide)
    (by decide) (by decide)
    ⟨by
      intro tx htx
      have htx' : tx = txQC := by simpa [poolQ, alGet, qlC] using htx
      subst htx'
      refine ⟨rfl, rfl, ?_⟩
      intro l hl
      simp [poolQ, alGet] at hl,
     by simp [poolQ, alGet, qlC]⟩
